import Mathlib

/-!
Shallow embedding of the harmony short-range sync core
(`hmy/downloader` short-range helper and `p2p/stream/types` framing),
with theorems about the hash-vote tally, the longest-hash-chain
aggregation, the block-fetch manager and the wire framing.

Modelling conventions:
* `StreamID` (an opaque string in the source) is modelled as `ℕ`;
  only decidable equality of identifiers is used by the code.
* `BlockHash` (an opaque 32-byte value in the source) is modelled as `ℕ`;
  only equality with the distinguished `emptyHash` and with other hashes
  is used by the code.
* A Go `map[K]V` is modelled as an association list `List (K × V)`;
  the list order stands for one (arbitrary) Go map iteration order, and
  theorems quantify over all orders.  A Go `map[K]struct\x7b\x7d` (a set)
  is modelled as a `List K` of its members.
-/

/-- StreamID: opaque peer-stream identifier (a string in the source),
modelled as a natural number; only equality is used. -/
abbrev StreamID : Type := ℕ

/-- BlockHash: opaque 32-byte block identifier, modelled as a natural
number; only equality is used. -/
abbrev BlockHash : Type := ℕ

/-- Modelled from the spec: the distinguished `EMPTY_HASH` value denoting
"no block" (the zero value `var emptyHash common.Hash`, defined outside
the provided source slice). -/
def emptyHash : BlockHash := 0

/-- One height's hash-vote table: Go `map[sttypes.StreamID]common.Hash`,
as an association list in iteration order. -/
abbrev HashVoteTable : Type := List (StreamID × BlockHash)

/-- A whitelist: Go `map[sttypes.StreamID]struct\x7b\x7d`, as the list of its
members. -/
abbrev Whitelist : Type := List StreamID

/-- The vote of entry `p` is counted when the whitelist is empty (no
constraint) or `p`'s stream is whitelisted.  This is the complement of the
`continue` condition of the first loop of `countHashMaxVote`. -/
def counted (wl : Whitelist) (p : StreamID × BlockHash) : Prop :=
  wl = [] ∨ p.1 ∈ wl

instance (wl : Whitelist) (p : StreamID × BlockHash) : Decidable (counted wl p) := by
  unfold counted; infer_instance

/-- Running state of the first loop of `countHashMaxVote`: the vote-count
map `voteM` (Go map with zero default), the current best hash `res`
(zero value `emptyHash` initially) and the running maximum `maxCnt`. -/
structure VoteState where
  voteM : BlockHash → ℕ
  res : BlockHash
  maxCnt : ℕ

/-- Initial state of the first loop of `countHashMaxVote`. -/
def initVoteState : VoteState :=
  { voteM := fun _ => 0, res := emptyHash, maxCnt := 0 }

/-- One iteration of the first loop of `countHashMaxVote`
(part_000 lines 302-316): skip the entry if a non-empty whitelist does not
contain the stream; otherwise increment the hash's count and, when it
strictly exceeds the running maximum, record the hash as the new best. -/
def voteStep (wl : Whitelist) (s : VoteState) (p : StreamID × BlockHash) : VoteState :=
  if wl ≠ [] ∧ p.1 ∉ wl then s
  else
    { voteM := fun h => if h = p.2 then s.voteM p.2 + 1 else s.voteM h,
      res := if s.voteM p.2 + 1 > s.maxCnt then p.2 else s.res,
      maxCnt := if s.voteM p.2 + 1 > s.maxCnt then s.voteM p.2 + 1 else s.maxCnt }

/-- The number of counted votes for hash `h` in table `m` under
whitelist `wl`. -/
def votesFor (m : HashVoteTable) (wl : Whitelist) (h : BlockHash) : ℕ :=
  m.countP (fun p => decide (counted wl p ∧ p.2 = h))

/-- Model of `countHashMaxVote` (part_000 lines 295-332): fold the vote table with
`voteStep`, then build `nextWl` as the (counted) voters of the winning
hash, exactly as the second loop does. -/
def countHashMaxVote (m : HashVoteTable) (wl : Whitelist) : BlockHash × Whitelist :=
  let fin := m.foldl (voteStep wl) initVoteState
  (fin.res,
    (m.filter (fun p => decide (p.2 = fin.res ∧ counted wl p))).map Prod.fst)

/-- Invariant tying a `VoteState` to the prefix of the table already
processed: `voteM` holds the counted vote counts, `maxCnt` bounds every
count, `res` is `emptyHash` while no vote is counted and otherwise attains
`maxCnt`. -/
def VoteInv (wl : Whitelist) (l : HashVoteTable) (s : VoteState) : Prop :=
  (∀ h, s.voteM h = votesFor l wl h) ∧
  (∀ h, s.voteM h ≤ s.maxCnt) ∧
  (s.maxCnt = 0 → s.res = emptyHash) ∧
  (s.maxCnt ≠ 0 → s.voteM s.res = s.maxCnt)

theorem votesFor_append (l l' : HashVoteTable) (wl : Whitelist) (h : BlockHash) :
    votesFor (l ++ l') wl h = votesFor l wl h + votesFor l' wl h := by
  simp [votesFor, List.countP_append]

theorem votesFor_singleton (p : StreamID × BlockHash) (wl : Whitelist) (h : BlockHash) :
    votesFor [p] wl h = if counted wl p ∧ p.2 = h then 1 else 0 := by
  simp only [votesFor, List.countP_cons, List.countP_nil]
  by_cases hc : counted wl p ∧ p.2 = h <;> simp [hc]

theorem voteInv_nil (wl : Whitelist) : VoteInv wl [] initVoteState := by
  refine ⟨?_, ?_, ?_, ?_⟩ <;> simp [initVoteState, votesFor]

theorem voteInv_step (wl : Whitelist) (l : HashVoteTable) (s : VoteState)
    (p : StreamID × BlockHash) (hs : VoteInv wl l s) :
    VoteInv wl (l ++ [p]) (voteStep wl s p) := by
  obtain ⟨hA, hB, hC, hD⟩ := hs
  by_cases hcnt : counted wl p
  · have hcond : ¬(wl ≠ [] ∧ p.1 ∉ wl) := by
      rcases hcnt with h | h
      · intro hh; exact hh.1 h
      · intro hh; exact hh.2 h
    refine ⟨?_, ?_, ?_, ?_⟩
    · intro h
      rw [votesFor_append, votesFor_singleton]
      by_cases hh : h = p.2
      · subst hh
        simp [voteStep, hcond, hA, hcnt]
      · have hnc : ¬(counted wl p ∧ p.2 = h) := by
          intro hx; exact hh hx.2.symm
        simp [voteStep, hcond, hh, hA, hnc]
    · intro h
      by_cases hgt : s.voteM p.2 + 1 > s.maxCnt
      · by_cases hh : h = p.2
        · subst hh; simp [voteStep, hcond, hgt]
        · have hbh := hB h
          simp only [voteStep, hcond]
          simp [hgt, hh]
          omega
      · by_cases hh : h = p.2
        · subst hh
          simp [voteStep, hcond, hgt]
          omega
        · have hbh := hB h
          simp [voteStep, hcond, hgt, hh]
          exact hbh
    · intro h0
      exfalso
      by_cases hgt : s.voteM p.2 + 1 > s.maxCnt
      · simp [voteStep, hcond, hgt] at h0
      · simp [voteStep, hcond, hgt] at h0
        omega
    · intro hne
      by_cases hgt : s.voteM p.2 + 1 > s.maxCnt
      · simp [voteStep, hcond, hgt]
      · have hmax : s.maxCnt ≠ 0 := by omega
        have hres : s.voteM s.res = s.maxCnt := hD hmax
        have hrne : s.res ≠ p.2 := by
          intro he; rw [he] at hres; omega
        simp [voteStep, hcond, hgt, hrne, hres]
  · have hcond : wl ≠ [] ∧ p.1 ∉ wl := by
      unfold counted at hcnt
      push_neg at hcnt
      exact hcnt
    have hstep : voteStep wl s p = s := by simp [voteStep, hcond]
    rw [hstep]
    refine ⟨?_, hB, hC, hD⟩
    intro h
    rw [votesFor_append, votesFor_singleton]
    have : ¬(counted wl p ∧ p.2 = h) := fun hx => hcnt hx.1
    simp [this, hA]

theorem voteInv_foldl_aux (wl : Whitelist) :
    ∀ (rest l : HashVoteTable) (s : VoteState), VoteInv wl l s →
      VoteInv wl (l ++ rest) (rest.foldl (voteStep wl) s) := by
  intro rest
  induction rest with
  | nil => intro l s hs; simpa using hs
  | cons p rest ih =>
    intro l s hs
    have h1 : VoteInv wl (l ++ [p]) (voteStep wl s p) := voteInv_step wl l s p hs
    have h2 := ih (l ++ [p]) (voteStep wl s p) h1
    simpa [List.append_assoc] using h2

theorem voteInv_foldl (wl : Whitelist) (m : HashVoteTable) :
    VoteInv wl m (m.foldl (voteStep wl) initVoteState) := by
  have := voteInv_foldl_aux wl m [] initVoteState (voteInv_nil wl)
  simpa using this

/-- Shorthand for the final fold state of `countHashMaxVote`. -/
def tallyFin (m : HashVoteTable) (wl : Whitelist) : VoteState :=
  m.foldl (voteStep wl) initVoteState

theorem tallyFin_inv (m : HashVoteTable) (wl : Whitelist) :
    VoteInv wl m (tallyFin m wl) :=
  voteInv_foldl wl m

theorem countHashMaxVote_fst (m : HashVoteTable) (wl : Whitelist) :
    (countHashMaxVote m wl).1 = (tallyFin m wl).res := rfl

theorem countHashMaxVote_snd (m : HashVoteTable) (wl : Whitelist) :
    (countHashMaxVote m wl).2 =
      (m.filter (fun p => decide (p.2 = (tallyFin m wl).res ∧ counted wl p))).map Prod.fst := rfl

theorem tally_nextWl_mem (m : HashVoteTable) (wl : Whitelist) (s : StreamID) :
    s ∈ (countHashMaxVote m wl).2 ↔
      ∃ p ∈ m, p.1 = s ∧ p.2 = (countHashMaxVote m wl).1 ∧ counted wl p := by
  rw [countHashMaxVote_snd, countHashMaxVote_fst]
  simp only [List.mem_map, List.mem_filter, decide_eq_true_eq]
  constructor
  · rintro ⟨p, ⟨hp, hcond⟩, hfst⟩
    exact ⟨p, hp, hfst, hcond.1, hcond.2⟩
  · rintro ⟨p, hp, hfst, hres, hcnt⟩
    exact ⟨p, ⟨hp, hres, hcnt⟩, hfst⟩

theorem tally_nextWl_subset_wl (m : HashVoteTable) (wl : Whitelist) (hwl : wl ≠ []) :
    (countHashMaxVote m wl).2 ⊆ wl := by
  intro s hs
  rcases (tally_nextWl_mem m wl s).1 hs with ⟨p, _, hfst, _, hcnt⟩
  rcases hcnt with h | h
  · exact absurd h hwl
  · rw [← hfst]; exact h

theorem tally_nextWl_subset_dom (m : HashVoteTable) (wl : Whitelist) :
    (countHashMaxVote m wl).2 ⊆ m.map Prod.fst := by
  intro s hs
  rcases (tally_nextWl_mem m wl s).1 hs with ⟨p, hp, hfst, _, _⟩
  exact List.mem_map.2 ⟨p, hp, hfst⟩

theorem tally_votesFor_le (m : HashVoteTable) (wl : Whitelist) (h : BlockHash) :
    votesFor m wl h ≤ votesFor m wl (countHashMaxVote m wl).1 := by
  obtain ⟨hA, hB, hC, hD⟩ := tallyFin_inv m wl
  rw [countHashMaxVote_fst]
  by_cases hmax : (tallyFin m wl).maxCnt = 0
  · have h1 : votesFor m wl h = 0 := by
      have := hB h; rw [hA h] at this; omega
    omega
  · have h1 : votesFor m wl (tallyFin m wl).res = (tallyFin m wl).maxCnt := by
      rw [← hA]; exact hD hmax
    have h2 : votesFor m wl h ≤ (tallyFin m wl).maxCnt := by
      rw [← hA]; exact hB h
    omega

theorem tally_counted_votesFor_pos (m : HashVoteTable) (wl : Whitelist)
    (hex : ∃ p ∈ m, counted wl p) :
    1 ≤ votesFor m wl (countHashMaxVote m wl).1 := by
  rcases hex with ⟨p, hp, hcnt⟩
  have hpos : 0 < votesFor m wl p.2 := by
    rw [votesFor, List.countP_pos_iff]
    exact ⟨p, hp, by simp [hcnt]⟩
  have := tally_votesFor_le m wl p.2
  omega

theorem tally_no_counted (m : HashVoteTable) (wl : Whitelist)
    (hnone : ∀ p ∈ m, ¬ counted wl p) :
    countHashMaxVote m wl = (emptyHash, []) := by
  obtain ⟨hA, hB, hC, hD⟩ := tallyFin_inv m wl
  have hzero : ∀ h, votesFor m wl h = 0 := by
    intro h
    rw [votesFor, List.countP_eq_zero]
    intro p hp
    simp only [decide_eq_true_eq, not_and]
    intro hc; exact absurd hc (hnone p hp)
  have hmax : (tallyFin m wl).maxCnt = 0 := by
    by_contra hne
    have := hD hne
    rw [hA] at this
    rw [hzero] at this
    omega
  have hres : (tallyFin m wl).res = emptyHash := hC hmax
  have hf : (m.filter (fun p => decide (p.2 = (tallyFin m wl).res ∧ counted wl p))) = [] := by
    rw [List.filter_eq_nil_iff]
    intro p hp
    simp only [decide_eq_true_eq, not_and]
    intro _
    exact hnone p hp
  have hwl : (countHashMaxVote m wl).2 = [] := by
    rw [countHashMaxVote_snd, hf, List.map_nil]
  have : countHashMaxVote m wl = ((countHashMaxVote m wl).1, (countHashMaxVote m wl).2) := rfl
  rw [this, hwl, countHashMaxVote_fst, hres]

theorem tally_res_ne_empty_nextWl_ne_nil (m : HashVoteTable) (wl : Whitelist)
    (hres : (countHashMaxVote m wl).1 ≠ emptyHash) :
    (countHashMaxVote m wl).2 ≠ [] := by
  obtain ⟨hA, hB, hC, hD⟩ := tallyFin_inv m wl
  rw [countHashMaxVote_fst] at hres
  have hmax : (tallyFin m wl).maxCnt ≠ 0 := by
    intro h0; exact hres (hC h0)
  have hv : 0 < votesFor m wl (tallyFin m wl).res := by
    have := hD hmax
    rw [hA] at this
    omega
  rw [votesFor, List.countP_pos_iff] at hv
  rcases hv with ⟨p, hp, hpred⟩
  simp only [decide_eq_true_eq] at hpred
  intro hnil
  have : p.1 ∈ (countHashMaxVote m wl).2 := by
    rw [tally_nextWl_mem]
    exact ⟨p, hp, rfl, by rw [countHashMaxVote_fst]; exact hpred.2, hpred.1⟩
  rw [hnil] at this
  exact List.not_mem_nil _ this

theorem tallyFold_restrict (wl : Whitelist) :
    ∀ (l : HashVoteTable) (s : VoteState),
      l.foldl (voteStep wl) s = (l.filter (fun p => decide (counted wl p))).foldl (voteStep []) s := by
  intro l
  induction l with
  | nil => intro s; rfl
  | cons p l ih =>
    intro s
    by_cases hc : counted wl p
    · have hcond : ¬(wl ≠ [] ∧ p.1 ∉ wl) := by
        rcases hc with h | h
        · intro hh; exact hh.1 h
        · intro hh; exact hh.2 h
      have hstepeq : voteStep wl s p = voteStep [] s p := by
        simp [voteStep, hcond]
      have hfc : List.filter (fun q => decide (counted wl q)) (p :: l)
          = p :: List.filter (fun q => decide (counted wl q)) l := by
        simp [List.filter_cons, hc]
      rw [hfc]
      simp only [List.foldl_cons]
      rw [hstepeq]
      exact ih (voteStep [] s p)
    · have hcond : wl ≠ [] ∧ p.1 ∉ wl := by
        unfold counted at hc
        push_neg at hc
        exact hc
      have hskip : voteStep wl s p = s := by simp [voteStep, hcond]
      have hfc : List.filter (fun q => decide (counted wl q)) (p :: l)
          = List.filter (fun q => decide (counted wl q)) l := by
        simp [List.filter_cons, hc]
      rw [hfc]
      simp only [List.foldl_cons]
      rw [hskip]
      exact ih s

theorem tallyFin_restrict (m : HashVoteTable) (wl : Whitelist) :
    tallyFin (m.filter (fun p => decide (counted wl p))) [] = tallyFin m wl :=
  (tallyFold_restrict wl m initVoteState).symm

theorem tally_restrict (m : HashVoteTable) (wl : Whitelist) :
    countHashMaxVote m wl = countHashMaxVote (m.filter (fun p => decide (counted wl p))) [] := by
  have h1 := tallyFin_restrict m wl
  apply Prod.ext
  · rw [countHashMaxVote_fst, countHashMaxVote_fst, h1]
  · rw [countHashMaxVote_snd, countHashMaxVote_snd, h1]
    rw [List.filter_filter]
    congr 1
    apply List.filter_congr
    intro p hp
    have hc : counted [] p := Or.inl rfl
    by_cases hres : p.2 = (tallyFin m wl).res <;>
      by_cases hcw : counted wl p <;> simp [hres, hcw, hc]

/-- C1: `countHashMaxVote(V, W)` (i) counts only votes of whitelisted
streams when `W` is non-empty (the tally equals the tally of the
restricted table under no constraint); (ii) the winner attains the
maximum counted-vote count, and receives at least one vote whenever some
vote is counted; (iii) `nextWhitelist` is exactly the set of streams whose
counted vote is the winner, hence is contained in `W` when `W ≠ ∅` and in
`domain(V)` always, and every member voted for the winner; (iv) if `V` is
empty, or `W` is non-empty and disjoint from `domain(V)`, the result is
`(EMPTY_HASH, ∅)`. -/
theorem countHashMaxVote_spec (m : HashVoteTable) (wl : Whitelist) :
    (countHashMaxVote m wl = countHashMaxVote (m.filter (fun p => decide (counted wl p))) []) ∧
    (∀ h, votesFor m wl h ≤ votesFor m wl (countHashMaxVote m wl).1) ∧
    ((∃ p ∈ m, counted wl p) → 1 ≤ votesFor m wl (countHashMaxVote m wl).1) ∧
    (∀ s, s ∈ (countHashMaxVote m wl).2 ↔
        ∃ p ∈ m, p.1 = s ∧ p.2 = (countHashMaxVote m wl).1 ∧ counted wl p) ∧
    (wl ≠ [] → (countHashMaxVote m wl).2 ⊆ wl) ∧
    ((countHashMaxVote m wl).2 ⊆ m.map Prod.fst) ∧
    ((m = [] ∨ (wl ≠ [] ∧ ∀ p ∈ m, p.1 ∉ wl)) → countHashMaxVote m wl = (emptyHash, [])) := by
  refine ⟨tally_restrict m wl, tally_votesFor_le m wl,
    tally_counted_votesFor_pos m wl, tally_nextWl_mem m wl,
    tally_nextWl_subset_wl m wl, tally_nextWl_subset_dom m wl, ?_⟩
  rintro (hm | ⟨hwl, hdis⟩)
  · subst hm
    exact tally_no_counted [] wl (by intro p hp; cases hp)
  · apply tally_no_counted
    intro p hp hcnt
    rcases hcnt with h | h
    · exact hwl h
    · exact hdis p hp h

theorem countHashMaxVote_spec_witness :
    countHashMaxVote [((1 : ℕ), (5 : ℕ))] [(2 : ℕ)] = (emptyHash, []) :=
  (countHashMaxVote_spec [((1 : ℕ), (5 : ℕ))] [(2 : ℕ)]).2.2.2.2.2.2
    (Or.inr ⟨by decide, by decide⟩)

/-- The per-height iteration of `computeLongestHashChain`
(part_000 lines 274-293): starting from the running whitelist, tally each
height in order; break at the first `emptyHash` winner, returning the
chain built so far and the running whitelist. -/
def computeChainGo : List HashVoteTable → Whitelist → List BlockHash × Whitelist
  | [], wl => ([], wl)
  | r :: rest, wl =>
    let p := countHashMaxVote r wl
    if p.1 = emptyHash then ([], wl)
    else
      let q := computeChainGo rest p.2
      (p.1 :: q.1, q.2)

/-- Model of `computeLongestHashChain` (part_000 lines 274-293): the iteration
starts with a nil (empty) whitelist; the final whitelist map is returned
as a list of its members. -/
def computeLongestHashChain (results : List HashVoteTable) : List BlockHash × Whitelist :=
  computeChainGo results []

/-- The full resolution trace: the `(winner, nextWhitelist)` pair of every
height, iterated without the `emptyHash` break.  It agrees with the
broken iteration up to the break position; follows the spec's
description of per-position tally resolution. -/
def resolveAll : List HashVoteTable → Whitelist → List (BlockHash × Whitelist)
  | [], _ => []
  | r :: rest, wl =>
    let p := countHashMaxVote r wl
    p :: resolveAll rest p.2

theorem resolveAll_length (rs : List HashVoteTable) (wl : Whitelist) :
    (resolveAll rs wl).length = rs.length := by
  induction rs generalizing wl with
  | nil => rfl
  | cons r rest ih => simp [resolveAll, ih]

theorem computeChainGo_eq_takeWhile (rs : List HashVoteTable) (wl : Whitelist) :
    (computeChainGo rs wl).1 =
      ((resolveAll rs wl).map Prod.fst).takeWhile (fun h => decide (h ≠ emptyHash)) := by
  induction rs generalizing wl with
  | nil => rfl
  | cons r rest ih =>
    by_cases hres : (countHashMaxVote r wl).1 = emptyHash
    · simp [computeChainGo, resolveAll, hres, List.takeWhile]
    · simp [computeChainGo, resolveAll, hres, List.takeWhile, ih]

theorem computeChainGo_wl_ne_nil (rs : List HashVoteTable) (wl : Whitelist) (hwl : wl ≠ []) :
    (computeChainGo rs wl).2 ≠ [] := by
  induction rs generalizing wl with
  | nil => exact hwl
  | cons r rest ih =>
    by_cases hres : (countHashMaxVote r wl).1 = emptyHash
    · simp only [computeChainGo, hres, if_pos]
      exact hwl
    · have hnext : (countHashMaxVote r wl).2 ≠ [] :=
        tally_res_ne_empty_nextWl_ne_nil r wl hres
      simp only [computeChainGo, hres, if_neg, not_false_iff]
      exact ih (countHashMaxVote r wl).2 hnext

theorem computeChainGo_whitelist_chain (rs : List HashVoteTable) (wl : Whitelist) :
    List.Chain' (fun a b => b ⊆ a)
      (((resolveAll rs wl).map Prod.snd).take (computeChainGo rs wl).1.length) := by
  induction rs generalizing wl with
  | nil => simp [resolveAll]
  | cons r rest ih =>
    by_cases hres : (countHashMaxVote r wl).1 = emptyHash
    · simp [computeChainGo, hres]
    · have hnext : (countHashMaxVote r wl).2 ≠ [] :=
        tally_res_ne_empty_nextWl_ne_nil r wl hres
      simp only [computeChainGo, hres, if_neg, not_false_iff, resolveAll, List.map_cons,
        List.length_cons, List.take_succ_cons]
      rw [List.chain'_cons']
      constructor
      · intro y hy
        cases rest with
        | nil => simp [resolveAll] at hy
        | cons r2 rest2 =>
          cases hlen : (computeChainGo (r2 :: rest2) (countHashMaxVote r wl).2).1.length with
          | zero => simp [resolveAll, hlen] at hy
          | succ k =>
            simp only [resolveAll, List.map_cons, hlen, List.take_succ_cons,
              List.head?_cons, Option.mem_def, Option.some.injEq] at hy
            rw [← hy]
            exact tally_nextWl_subset_wl r2 (countHashMaxVote r wl).2 hnext
      · exact ih (countHashMaxVote r wl).2

/-- C2: across successively resolved heights of
`computeLongestHashChain`, the running whitelist is non-increasing under
set inclusion (the whitelist after height `i+1` is contained in the one
after height `i`, for all heights the chain covers), and the returned
whitelist is non-empty whenever the returned chain is non-empty. -/
theorem computeLongestHashChain_whitelist_spec (rs : List HashVoteTable) :
    List.Chain' (fun a b => b ⊆ a)
      (((resolveAll rs []).map Prod.snd).take (computeLongestHashChain rs).1.length) ∧
    ((computeLongestHashChain rs).1 ≠ [] → (computeLongestHashChain rs).2 ≠ []) := by
  constructor
  · exact computeChainGo_whitelist_chain rs []
  · intro hchain
    cases rs with
    | nil => simp [computeLongestHashChain, computeChainGo] at hchain
    | cons r rest =>
      by_cases hres : (countHashMaxVote r []).1 = emptyHash
      · simp [computeLongestHashChain, computeChainGo, hres] at hchain
      · have hnext : (countHashMaxVote r []).2 ≠ [] :=
          tally_res_ne_empty_nextWl_ne_nil r [] hres
        simp only [computeLongestHashChain, computeChainGo, hres, if_neg, not_false_iff]
        exact computeChainGo_wl_ne_nil rest (countHashMaxVote r []).2 hnext

theorem computeLongestHashChain_whitelist_spec_witness :
    (computeLongestHashChain [[((1 : ℕ), (5 : ℕ))]]).2 ≠ [] :=
  (computeLongestHashChain_whitelist_spec [[((1 : ℕ), (5 : ℕ))]]).2 (by decide)

/-- C3: the chain returned by `computeLongestHashChain` is exactly the
winner trace truncated at (and excluding) the first position whose tally
resolves to `emptyHash`; when no position resolves to `emptyHash`, the
chain is the whole winner trace, covering every requested position. -/
theorem computeLongestHashChain_chain_spec (rs : List HashVoteTable) :
    (computeLongestHashChain rs).1 =
      ((resolveAll rs []).map Prod.fst).takeWhile (fun h => decide (h ≠ emptyHash)) ∧
    ((∀ h ∈ (resolveAll rs []).map Prod.fst, h ≠ emptyHash) →
      (computeLongestHashChain rs).1 = (resolveAll rs []).map Prod.fst ∧
      (computeLongestHashChain rs).1.length = rs.length) := by
  constructor
  · exact computeChainGo_eq_takeWhile rs []
  · intro hall
    have h1 : (computeLongestHashChain rs).1 = (resolveAll rs []).map Prod.fst := by
      show (computeChainGo rs []).1 = _
      rw [computeChainGo_eq_takeWhile rs []]
      apply List.takeWhile_eq_self_iff.2
      intro a ha
      simpa using hall a ha
    refine ⟨h1, ?_⟩
    rw [h1, List.length_map, resolveAll_length]

theorem computeLongestHashChain_chain_spec_witness :
    (computeLongestHashChain [[((1 : ℕ), (5 : ℕ))], [((1 : ℕ), (6 : ℕ))]]).1.length = 2 :=
  ((computeLongestHashChain_chain_spec [[((1 : ℕ), (5 : ℕ))], [((1 : ℕ), (6 : ℕ))]]).2
    (by decide)).2

/-- A block body; only its hash identity is used by the short-range core
(`block.Hash()` in the source). -/
structure Block where
  hash : BlockHash
deriving DecidableEq

/-- Model of `blockResult` (part_000): the recorded block — a possibly-nil pointer
in Go, hence an `Option` — and the supplying stream. -/
structure BlockResult where
  block : Option Block
  stid : StreamID
deriving DecidableEq

/-- The Go zero value of `blockResult`: nil block pointer and zero-valued
stream identifier; produced by indexing the results map at an absent key. -/
def zeroBlockResult : BlockResult := { block := none, stid := 0 }

/-- Model of `getBlocksByHashManager` (part_000 lines 334-341): target hashes in
order, the pending set, the results map and the current whitelist. -/
structure GetBlocksByHashManager where
  hashes : List BlockHash
  pendings : List BlockHash
  results : List (BlockHash × BlockResult)
  whitelist : List StreamID
deriving DecidableEq

/-- Modelled from the spec: `LOWER_CAP = 6` (`numBlocksByHashesLowerCap`,
a constant defined outside the provided source slice). -/
def numBlocksByHashesLowerCap : Int := 6

/-- Modelled from the spec: `UPPER_CAP = 10` (`numBlocksByHashesUpperCap`,
a constant defined outside the provided source slice). -/
def numBlocksByHashesUpperCap : Int := 10

/-- Modelled from the spec: `NUM_BLOCK_HASHES_PER_REQUEST = 20`
(`numBlockHashesPerRequest`, a constant defined outside the provided
source slice). -/
def numBlockHashesPerRequest : ℕ := 20

/-- Model of `divideCeil` (part_000 lines 451-454).  The source computes
`int(math.Ceil(float64(x) / float64(y)))`.  For `y ≠ 0` the float64
computation is exact for the argument sizes this program produces
(`x ≤ 20` target hashes), and equals the ceiling `(x + y - 1) / y` in ℕ.
For `y = 0` the float division yields `+Inf` (or `NaN` when `x = 0`) and
the Go int conversion of it is implementation-defined: that value is the
explicit parameter `dz`, and theorems quantify over it. -/
def divideCeil (dz : Int) (x y : ℕ) : Int :=
  if y = 0 then dz else ((x + y - 1) / y : ℕ)

/-- Model of `numBlocksPerRequest` (part_000 lines 377-386): the ceiling division
clamped below by the lower cap then above by the upper cap, mirroring the
two `if` statements of the source. -/
def numBlocksPerRequest (dz : Int) (m : GetBlocksByHashManager) : Int :=
  let val := divideCeil dz m.hashes.length m.whitelist.length
  let val2 := if val < numBlocksByHashesLowerCap then numBlocksByHashesLowerCap else val
  if val2 > numBlocksByHashesUpperCap then numBlocksByHashesUpperCap else val2

/-- The selection loop of `getNextHashes` (part_000 lines 362-371):
accumulate, in target order, hashes that are neither pending nor already
in the results map, stopping once the accumulator reaches `num`. -/
def selectHashesGo (num : Int) (pend : List BlockHash)
    (res : List (BlockHash × BlockResult)) :
    List BlockHash → List BlockHash → List BlockHash
  | acc, [] => acc
  | acc, h :: rest =>
    if (acc.length : Int) = num then acc
    else if h ∉ pend ∧ res.lookup h = none then
      selectHashesGo num pend res (acc ++ [h]) rest
    else
      selectHashesGo num pend res acc rest

/-- Model of `getNextHashes` (part_000 lines 352-375).  The batch size is computed
before the empty-whitelist check, exactly as in the source.  The manager
state is returned unchanged because the source method performs no state
writes — in particular the selected hashes are not inserted into
`pendings`. -/
def getNextHashes (dz : Int) (m : GetBlocksByHashManager) :
    Except String (List BlockHash × List StreamID) × GetBlocksByHashManager :=
  let num := numBlocksPerRequest dz m
  if m.whitelist = [] then (Except.error "empty white list", m)
  else (Except.ok (selectHashesGo num m.pendings m.results [] m.hashes, m.whitelist), m)

/-- Go map insertion on the association-list model: replace the value at
an existing key, else append the binding. -/
def insertResult : List (BlockHash × BlockResult) → BlockHash → BlockResult →
    List (BlockHash × BlockResult)
  | [], h, br => [(h, br)]
  | (k, v) :: rest, h, br =>
    if k = h then (k, br) :: rest else (k, v) :: insertResult rest h br

/-- Model of `getBlocksByHashManager.addResult` (part_000 lines 388-400): for each
requested hash and its aligned block, drop the hash from `pendings` and
record the block with the supplying stream.  The source indexes
`blocks[i]` for every `i` of `hashes` (callers pass equal lengths); the
aligned pairs are the zip of the two lists. -/
def addResult (m : GetBlocksByHashManager) (hashes : List BlockHash)
    (blocks : List (Option Block)) (stid : StreamID) : GetBlocksByHashManager :=
  (hashes.zip blocks).foldl
    (fun acc hb =>
      { acc with
        pendings := acc.pendings.erase hb.1,
        results := insertResult acc.results hb.1 { block := hb.2, stid := stid } })
    m

/-- Go map indexing with zero-value default, as used by `getResults`. -/
def lookupResult (res : List (BlockHash × BlockResult)) (h : BlockHash) : BlockResult :=
  (res.lookup h).getD zeroBlockResult

/-- The loop of `getResults` (part_000 lines 413-425): walk the target
hashes in order; fail at the first hash whose recorded block is nil
(including absent records, whose zero value has a nil block), else emit
the recorded blocks in target order. -/
def getResultsGo (res : List (BlockHash × BlockResult)) :
    List BlockHash → Except String (List Block)
  | [] => Except.ok []
  | h :: rest =>
    match (lookupResult res h).block with
    | none => Except.error "SANITY: nil block found"
    | some b =>
      match getResultsGo res rest with
      | Except.error e => Except.error e
      | Except.ok bs => Except.ok (b :: bs)

/-- Model of `getResults` (part_000 lines 413-425). -/
def getResults (m : GetBlocksByHashManager) : Except String (List Block) :=
  getResultsGo m.results m.hashes

/-- Hash-consistency of the results map: every recorded non-nil block is
keyed by its own hash.  `addResult` callers establish it through
`checkGetBlockByHashesResult`. -/
def ResultsConsistent (res : List (BlockHash × BlockResult)) : Prop :=
  ∀ h br, res.lookup h = some br → ∀ b, br.block = some b → b.hash = h

/-- C4 (evidence of the source defect): on a state with one target hash,
nothing pending or completed and whitelist `[7]`, `getNextHashes` selects
and returns hash `1`, yet the returned manager state is the input state
unchanged — in particular `pendings` is still empty: the source never
inserts the selected hashes into `pendings`, contradicting the claim that
the batch is marked pending in the selecting critical section. -/
theorem getNextHashes_not_marking_pending :
    getNextHashes 0 ⟨[1], [], [], [7]⟩ =
      (Except.ok ([1], [7]), ⟨[1], [], [], [7]⟩) ∧
    (getNextHashes 0 ⟨[1], [], [], [7]⟩).2.pendings = [] := by
  constructor <;> rfl

/-- C10: with an empty whitelist, `getNextHashes` returns the
empty-whitelist error and the manager unchanged, for every value `dz` the
implementation-defined int conversion of the float division-by-zero may
produce: the batch size computed from it is clamped and then discarded on
the error path. -/
theorem getNextHashes_empty_whitelist_spec (dz : Int) (m : GetBlocksByHashManager)
    (hwl : m.whitelist = []) :
    getNextHashes dz m = (Except.error "empty white list", m) := by
  unfold getNextHashes
  simp [hwl]

theorem getNextHashes_empty_whitelist_spec_witness :
    getNextHashes (-37) ⟨[1, 2], [], [], []⟩ =
      (Except.error "empty white list", ⟨[1, 2], [], [], []⟩) :=
  getNextHashes_empty_whitelist_spec (-37) ⟨[1, 2], [], [], []⟩ rfl

/-- The spec's clamp: `clamp(v, LOWER_CAP, UPPER_CAP)`. -/
def clampSpec (v : Int) : Int :=
  max numBlocksByHashesLowerCap (min numBlocksByHashesUpperCap v)

theorem ceilDiv_antitone (t w w2 : ℕ) (h2 : 0 < w2) (hle : w2 ≤ w) :
    (t + w - 1) / w ≤ (t + w2 - 1) / w2 := by
  have hw : 0 < w := lt_of_lt_of_le h2 hle
  have hmod := Nat.div_add_mod (t + w2 - 1) w2
  have hr : (t + w2 - 1) % w2 < w2 := Nat.mod_lt _ h2
  have ht : t ≤ w2 * ((t + w2 - 1) / w2) := by omega
  have ht2 : t ≤ w * ((t + w2 - 1) / w2) :=
    le_trans ht (Nat.mul_le_mul_right _ hle)
  have hlt : (t + w - 1) / w < (t + w2 - 1) / w2 + 1 := by
    rw [Nat.div_lt_iff_lt_mul hw]
    have hexp : ((t + w2 - 1) / w2 + 1) * w = w * ((t + w2 - 1) / w2) + w := by ring
    omega
  omega

theorem numBlocksPerRequest_eq_clamp (dz : Int) (m : GetBlocksByHashManager)
    (hwl : m.whitelist ≠ []) :
    numBlocksPerRequest dz m =
      clampSpec ((m.hashes.length + m.whitelist.length - 1) / m.whitelist.length : ℕ) := by
  have hw : m.whitelist.length ≠ 0 := by
    intro h; exact hwl (List.length_eq_zero.1 h)
  simp only [numBlocksPerRequest, divideCeil, hw, if_neg, not_false_iff, clampSpec,
    numBlocksByHashesLowerCap, numBlocksByHashesUpperCap]
  split_ifs <;> simp [max_def, min_def] <;> split_ifs <;> omega

theorem numBlocksPerRequest_bounds (dz : Int) (m : GetBlocksByHashManager)
    (hwl : m.whitelist ≠ []) :
    numBlocksByHashesLowerCap ≤ numBlocksPerRequest dz m ∧
    numBlocksPerRequest dz m ≤ numBlocksByHashesUpperCap := by
  rw [numBlocksPerRequest_eq_clamp dz m hwl]
  unfold clampSpec numBlocksByHashesLowerCap numBlocksByHashesUpperCap
  constructor
  · exact le_max_left _ _
  · rw [max_le_iff]
    constructor
    · norm_num
    · exact min_le_left _ _

theorem clampSpec_mono (a b : Int) (hab : a ≤ b) : clampSpec a ≤ clampSpec b := by
  unfold clampSpec
  exact max_le_max (le_refl _) (min_le_min (le_refl _) hab)

/-- C6: with a non-empty whitelist (and any implementation-defined
division-by-zero value `dz`, which is unused in that case), the dynamic
batch size equals `clamp(ceil(len(target)/len(whitelist)), 6, 10)`, lies
within the caps, and does not decrease when the whitelist shrinks while
the target is fixed. -/
theorem numBlocksPerRequest_spec (dz : Int) (m : GetBlocksByHashManager)
    (hwl : m.whitelist ≠ []) :
    numBlocksPerRequest dz m =
      clampSpec ((m.hashes.length + m.whitelist.length - 1) / m.whitelist.length : ℕ) ∧
    numBlocksByHashesLowerCap ≤ numBlocksPerRequest dz m ∧
    numBlocksPerRequest dz m ≤ numBlocksByHashesUpperCap ∧
    (∀ wl2 : List StreamID, wl2 ≠ [] → wl2.length ≤ m.whitelist.length →
      numBlocksPerRequest dz m ≤
        numBlocksPerRequest dz { m with whitelist := wl2 }) := by
  refine ⟨numBlocksPerRequest_eq_clamp dz m hwl,
    (numBlocksPerRequest_bounds dz m hwl).1,
    (numBlocksPerRequest_bounds dz m hwl).2, ?_⟩
  intro wl2 h2 hlen
  have h2len : 0 < wl2.length := List.length_pos.2 h2
  rw [numBlocksPerRequest_eq_clamp dz m hwl,
    numBlocksPerRequest_eq_clamp dz { m with whitelist := wl2 } h2]
  apply clampSpec_mono
  have := ceilDiv_antitone m.hashes.length m.whitelist.length wl2.length h2len hlen
  exact_mod_cast this

theorem numBlocksPerRequest_spec_witness :
    numBlocksByHashesLowerCap ≤ numBlocksPerRequest 0 ⟨[1, 2, 3], [], [], [4]⟩ :=
  (numBlocksPerRequest_spec 0 ⟨[1, 2, 3], [], [], [4]⟩ (by decide)).2.1

theorem getResultsGo_error_val (res : List (BlockHash × BlockResult)) :
    ∀ (hs : List BlockHash) (e : String), getResultsGo res hs = Except.error e →
      e = "SANITY: nil block found" ∧ ∃ h ∈ hs, (lookupResult res h).block = none := by
  intro hs
  induction hs with
  | nil => intro e he; simp [getResultsGo] at he
  | cons h rest ih =>
    intro e he
    unfold getResultsGo at he
    cases hb : (lookupResult res h).block with
    | none =>
      rw [hb] at he
      simp only [Except.error.injEq] at he
      exact ⟨he.symm, h, List.mem_cons_self h rest, hb⟩
    | some b =>
      rw [hb] at he
      cases heq : getResultsGo res rest with
      | error e2 =>
        rw [heq] at he
        simp only [Except.error.injEq] at he
        rcases ih e2 heq with ⟨hv, h0, hm, hn⟩
        exact ⟨he ▸ hv, h0, List.mem_cons_of_mem h hm, hn⟩
      | ok bs =>
        rw [heq] at he
        simp at he

theorem getResultsGo_error_of_none (res : List (BlockHash × BlockResult)) :
    ∀ hs : List BlockHash, (∃ h ∈ hs, (lookupResult res h).block = none) →
      getResultsGo res hs = Except.error "SANITY: nil block found" := by
  intro hs
  induction hs with
  | nil => rintro ⟨h, hm, _⟩; cases hm
  | cons h rest ih =>
    rintro ⟨h0, hm, hn⟩
    unfold getResultsGo
    rcases List.mem_cons.1 hm with heq | hmem
    · subst heq
      rw [hn]
    · cases hb : (lookupResult res h).block with
      | none => rfl
      | some b =>
        rw [ih ⟨h0, hmem, hn⟩]

theorem getResultsGo_ok_align (res : List (BlockHash × BlockResult)) :
    ∀ (hs : List BlockHash) (bs : List Block), getResultsGo res hs = Except.ok bs →
      List.Forall₂ (fun h b => (lookupResult res h).block = some b) hs bs := by
  intro hs
  induction hs with
  | nil =>
    intro bs hbs
    simp only [getResultsGo, Except.ok.injEq] at hbs
    rw [← hbs]
    exact List.Forall₂.nil
  | cons h rest ih =>
    intro bs hbs
    unfold getResultsGo at hbs
    cases hb : (lookupResult res h).block with
    | none => rw [hb] at hbs; simp at hbs
    | some b =>
      rw [hb] at hbs
      cases heq : getResultsGo res rest with
      | error e => rw [heq] at hbs; simp at hbs
      | ok bs2 =>
        rw [heq] at hbs
        simp only [Except.ok.injEq] at hbs
        rw [← hbs]
        exact List.Forall₂.cons hb (ih bs2 heq)

theorem insertResult_lookup (res : List (BlockHash × BlockResult))
    (h : BlockHash) (br : BlockResult) (h' : BlockHash) :
    (insertResult res h br).lookup h' = if h' = h then some br else res.lookup h' := by
  induction res with
  | nil =>
    by_cases hh : h' = h
    · have hb : (h' == h) = true := beq_iff_eq.2 hh
      simp [insertResult, List.lookup, hb, hh]
    · have hb : (h' == h) = false := beq_eq_false_iff_ne.2 hh
      simp [insertResult, List.lookup, hb, hh]
  | cons kv rest ih =>
    obtain ⟨k, v⟩ := kv
    by_cases hkh : k = h
    · subst hkh
      by_cases hh : h' = k
      · have hb : (h' == k) = true := beq_iff_eq.2 hh
        simp [insertResult, List.lookup, hb, hh]
      · have hb : (h' == k) = false := beq_eq_false_iff_ne.2 hh
        simp [insertResult, List.lookup, hb, hh]
    · by_cases hk : h' = k
      · subst hk
        have hne : ¬(h' = h) := fun he => hkh (he ▸ rfl)
        have hb : (h' == h') = true := beq_iff_eq.2 rfl
        simp [insertResult, hkh, List.lookup, hb, hne]
      · have hb : (h' == k) = false := beq_eq_false_iff_ne.2 hk
        simp [insertResult, hkh, List.lookup, hb, hk, ih]

theorem resultsConsistent_insert (res : List (BlockHash × BlockResult))
    (h : BlockHash) (br : BlockResult)
    (hres : ResultsConsistent res)
    (hbr : ∀ b, br.block = some b → b.hash = h) :
    ResultsConsistent (insertResult res h br) := by
  intro h' br' hl b hb
  rw [insertResult_lookup] at hl
  by_cases hh : h' = h
  · rw [if_pos hh] at hl
    cases hl
    rw [hh]
    exact hbr b hb
  · rw [if_neg hh] at hl
    exact hres h' br' hl b hb

theorem addResultGo_consistent (stid : StreamID) :
    ∀ (l : List (BlockHash × Option Block)) (m : GetBlocksByHashManager),
      ResultsConsistent m.results →
      (∀ pr ∈ l, ∀ b, pr.2 = some b → b.hash = pr.1) →
      ResultsConsistent
        ((l.foldl
          (fun acc hb =>
            { acc with
              pendings := acc.pendings.erase hb.1,
              results := insertResult acc.results hb.1 { block := hb.2, stid := stid } })
          m).results) := by
  intro l
  induction l with
  | nil => intro m hm _; exact hm
  | cons hb l ih =>
    intro m hm halign
    simp only [List.foldl_cons]
    apply ih
    · apply resultsConsistent_insert _ _ _ hm
      intro b hbeq
      exact halign hb (List.mem_cons_self hb l) b hbeq
    · intro pr hpr b hbeq
      exact halign pr (List.mem_cons_of_mem hb hpr) b hbeq

/-- C5: `getResults` fails — always with the sanity nil-block error — if
and only if some target hash lacks a recorded non-nil block; on success
it returns exactly one block per target hash, positionally aligned with
the records, and, whenever the results map is hash-consistent (as
`addResult` keeps it for validated responses), `output[i].hash`
equals `target[i]`. -/
theorem getResults_spec (m : GetBlocksByHashManager) :
    (∀ e, getResults m = Except.error e →
      e = "SANITY: nil block found" ∧
      ∃ h ∈ m.hashes, (lookupResult m.results h).block = none) ∧
    ((∃ h ∈ m.hashes, (lookupResult m.results h).block = none) →
      getResults m = Except.error "SANITY: nil block found") ∧
    (∀ bs, getResults m = Except.ok bs →
      bs.length = m.hashes.length ∧
      List.Forall₂ (fun h b => (lookupResult m.results h).block = some b) m.hashes bs ∧
      (ResultsConsistent m.results →
        List.Forall₂ (fun h b => b.hash = h) m.hashes bs)) ∧
    (∀ hashes blocks stid, ResultsConsistent m.results →
      (∀ pr ∈ hashes.zip blocks, ∀ b, pr.2 = some b → b.hash = pr.1) →
      ResultsConsistent (addResult m hashes blocks stid).results) := by
  refine ⟨getResultsGo_error_val m.results m.hashes,
    getResultsGo_error_of_none m.results m.hashes, ?_, ?_⟩
  · intro bs hbs
    have halign := getResultsGo_ok_align m.results m.hashes bs hbs
    refine ⟨halign.length_eq.symm, halign, ?_⟩
    intro hcons
    apply List.Forall₂.imp ?_ halign
    intro h b hb
    cases hl : m.results.lookup h with
    | none =>
      simp only [lookupResult, hl, Option.getD_none, zeroBlockResult] at hb
      cases hb
    | some br =>
      simp only [lookupResult, hl, Option.getD_some] at hb
      exact hcons h br hl b hb
  · intro hashes blocks stid hcons halign2
    exact addResultGo_consistent stid (hashes.zip blocks) m hcons halign2

theorem getResults_spec_witness :
    getResults ⟨[1], [], [], []⟩ = Except.error "SANITY: nil block found" :=
  (getResults_spec ⟨[1], [], [], []⟩).2.1 ⟨1, by decide, by decide⟩

/-- Modelled from the spec: a sync error carrying its insert-phase
classification — `sigVerify` for errors whose chain `errors.As` matches
`*sigVerifyError` (a type defined outside the provided source slice),
`other` for all remaining errors. -/
inductive SyncError where
  | sigVerify : String → SyncError
  | other : String → SyncError
deriving DecidableEq

/-- The check `errors.As(err, &emptySigVerifyError)` (part_000 line 65). -/
def isSigVerifyErr : SyncError → Bool
  | SyncError.sigVerify _ => true
  | SyncError.other _ => false

/-- Model of `srHelper.removeStreams` (part_000 lines 220-224): calls
`RemoveStream` on every stream of the list; its effect is modelled as the
sequence of streams evicted. -/
def removeStreams (sts : List StreamID) : List StreamID := sts

/-- The insert phase of `doShortRangeSync` (part_000 lines 62-70), as a
pure function of the hash-chain whitelist, the fetched blocks, and the
result `(n, err)` of `ih.verifyAndInsertBlocks`: the first component is
the `(count, error)` pair the function returns, the second the list of
streams evicted during this phase. -/
def doShortRangeSyncInsertPhase (whitelist : List StreamID) (blocks : List Block)
    (n : ℕ) (insertErr : Option SyncError) :
    (ℕ × Option SyncError) × List StreamID :=
  match insertErr with
  | some e =>
    ((n, some e), if isSigVerifyErr e then [] else removeStreams whitelist)
  | none => ((blocks.length, none), [])

/-- C7: when the insert phase fails, `doShortRangeSync` returns the count
inserted so far together with the error, and a stream is evicted exactly
when the error is not of signature-verification kind and the stream is in
the hash-chain whitelist; on a signature-verification error nothing is
evicted. -/
theorem doShortRangeSync_insert_error_spec (wl : List StreamID) (blocks : List Block)
    (n : ℕ) (e : SyncError) :
    (doShortRangeSyncInsertPhase wl blocks n (some e)).1 = (n, some e) ∧
    (∀ s, s ∈ (doShortRangeSyncInsertPhase wl blocks n (some e)).2 ↔
      (isSigVerifyErr e = false ∧ s ∈ wl)) ∧
    (isSigVerifyErr e = true → (doShortRangeSyncInsertPhase wl blocks n (some e)).2 = []) := by
  cases e with
  | sigVerify msg =>
    refine ⟨rfl, ?_, fun _ => rfl⟩
    intro s
    simp [doShortRangeSyncInsertPhase, isSigVerifyErr]
  | other msg =>
    refine ⟨rfl, ?_, ?_⟩
    · intro s
      simp [doShortRangeSyncInsertPhase, isSigVerifyErr, removeStreams]
    · intro h
      simp [isSigVerifyErr] at h

theorem doShortRangeSync_insert_error_spec_witness :
    (doShortRangeSyncInsertPhase [3] [] 2 (some (SyncError.sigVerify "x"))).2 = [] :=
  (doShortRangeSync_insert_error_spec [3] [] 2 (SyncError.sigVerify "x")).2.2 rfl

/-- Go map insertion for one height's vote table: replace the vote at an
existing stream key, else append the binding. -/
def insertVote : List (StreamID × BlockHash) → StreamID → BlockHash →
    List (StreamID × BlockHash)
  | [], st, h => [(st, h)]
  | (k, v) :: rest, st, h =>
    if k = st then (k, h) :: rest else (k, v) :: insertVote rest st h

/-- Model of `blockHashResults.addResult` (part_000 lines 261-272): record
`hashes[i]` against the stream at height `i`, aborting (discarding the
rest of the listing) at the first `emptyHash`.  Callers guarantee the
listing is no longer than the height window. -/
def bhAddResult : List HashVoteTable → List BlockHash → StreamID → List HashVoteTable
  | rs, [], _ => rs
  | [], _ :: _, _ => []
  | r :: rs, h :: hs, stid =>
    if h = emptyHash then r :: rs
    else insertVote r stid h :: bhAddResult rs hs stid

/-- Model of `doGetBlockHashesRequest` (part_000 lines 186-201) as a function of
the adapter response `(hashes, stid, transport error)`: a transport error
propagates with no eviction; a listing whose length differs from the
requested height count evicts the stream via `RemoveStream` and yields an
error; a listing of the correct length is returned unmodified with no
eviction.  The last component is the list of streams evicted. -/
def doGetBlockHashesRequest (bns : List ℕ) (hashes : List BlockHash)
    (stid : StreamID) (transportErr : Option String) :
    Except String (List BlockHash) × StreamID × List StreamID :=
  match transportErr with
  | some e => (Except.error e, stid, [])
  | none =>
    if hashes.length ≠ bns.length then
      (Except.error "unexpected get block hashes result delivered", stid, [stid])
    else (Except.ok hashes, stid, [])

/-- The per-worker body of `getHashChain` (part_000 lines 89-97):
`blockHashResults.addResult` runs only when the request returned no
error, so a rejected listing contributes no votes. -/
def hashWorkerStep (bns : List ℕ) (results : List HashVoteTable)
    (hashes : List BlockHash) (stid : StreamID) (transportErr : Option String) :
    List HashVoteTable × List StreamID :=
  match doGetBlockHashesRequest bns hashes stid transportErr with
  | (Except.error _, _, evicted) => (results, evicted)
  | (Except.ok hs, st, evicted) => (bhAddResult results hs st, evicted)

/-- C8: a listing whose length differs from the requested height count
makes `doGetBlockHashesRequest` evict the providing stream and return an
error, and the worker leaves the vote tables untouched (the listing
contributes no votes); a listing of the correct length is returned
unmodified with no eviction. -/
theorem doGetBlockHashesRequest_spec (bns : List ℕ) (results : List HashVoteTable)
    (hashes : List BlockHash) (stid : StreamID) :
    (hashes.length ≠ bns.length →
      doGetBlockHashesRequest bns hashes stid none =
        (Except.error "unexpected get block hashes result delivered", stid, [stid]) ∧
      hashWorkerStep bns results hashes stid none = (results, [stid])) ∧
    (hashes.length = bns.length →
      doGetBlockHashesRequest bns hashes stid none = (Except.ok hashes, stid, []) ∧
      hashWorkerStep bns results hashes stid none =
        (bhAddResult results hashes stid, [])) := by
  constructor
  · intro hne
    refine ⟨by simp [doGetBlockHashesRequest, hne], ?_⟩
    simp [hashWorkerStep, doGetBlockHashesRequest, hne]
  · intro heq
    refine ⟨by simp [doGetBlockHashesRequest, heq], ?_⟩
    simp [hashWorkerStep, doGetBlockHashesRequest, heq]

theorem doGetBlockHashesRequest_spec_witness :
    hashWorkerStep [1, 2] [[], []] [5] 9 none = ([[], []], [9]) :=
  ((doGetBlockHashesRequest_spec [1, 2] [[], []] [5] 9).1 (by decide)).2

/-- Constant `maxMsgBytes` (stream.go line 74): 20 MiB. -/
def maxMsgBytes : ℕ := 20 * 1024 * 1024

/-- Constant `sizeBytes` (stream.go line 75): the 4-byte uint32 length prefix. -/
def sizeBytes : ℕ := 4

/-- Model of `intToBytes` (stream.go lines 144-148): the little-endian bytes of
`uint32(val)`.  Truncation to 32 bits commutes with the byte extraction
(`(v % 2 ^ 32) % 256 = v % 256`, `(v % 2 ^ 32) / 256 % 256 = v / 256 % 256`,
and so on), so the bytes are written directly from `v`. -/
def intToBytes (v : ℕ) : List ℕ :=
  [v % 256, v / 256 % 256, v / 65536 % 256, v / 16777216 % 256]

/-- Model of `bytesToInt` (stream.go lines 150-153): little-endian uint32 decode of
the first four bytes.  The Go code indexes `b[0..3]` of a 4-byte buffer;
the zero default is never exercised by the callers. -/
def bytesToInt (b : List ℕ) : ℕ :=
  b.getD 0 0 + 256 * b.getD 1 0 + 65536 * b.getD 2 0 + 16777216 * b.getD 3 0

/-- Model of `WriteBytes` (stream.go lines 80-101) on the byte-stream model: the
oversize check precedes every write, and a successful call emits the
4-byte length prefix followed by the payload (the buffered writer is
flushed at the end). -/
def writeBytes (b : List ℕ) : Except String (List ℕ) :=
  if b.length > maxMsgBytes then Except.error "message too long"
  else Except.ok (intToBytes b.length ++ b)

/-- Model of `ReadBytes` (stream.go lines 104-137) on the byte-stream model: read
up to 4 bytes into a zero-initialised buffer (an empty stream yields the
wrapped read-size error), decode the declared size, reject oversize
declarations before touching the body, then read exactly `size` body
bytes (fewer available yields the wrapped read-content error); the final
sanity comparison mirrors the source's dead check.  Returns the payload
and the unconsumed remainder of the stream. -/
def readBytes (input : List ℕ) : Except String (List ℕ × List ℕ) :=
  if input = [] then Except.error "read size"
  else
    let k := min sizeBytes input.length
    let sb := input.take k ++ List.replicate (sizeBytes - k) 0
    let rest := input.drop k
    let size := bytesToInt sb
    if size > maxMsgBytes then Except.error "message size exceed max"
    else if rest.length < size then Except.error "read content"
    else if (rest.take size).length ≠ size then
      Except.error "ReadBytes sanity failed: byte size"
    else Except.ok (rest.take size, rest.drop size)

theorem bytesToInt_intToBytes (v : ℕ) (hv : v < 4294967296) :
    bytesToInt (intToBytes v) = v := by
  simp only [bytesToInt, intToBytes, List.getD_cons_zero, List.getD_cons_succ]
  omega

/-- C9: any payload of at most 20 MiB framed by `writeBytes` — a 4-byte
little-endian length prefix followed by the payload — is recovered
exactly by `readBytes`, with any trailing stream bytes left unconsumed;
an oversize payload is rejected by `writeBytes` before anything is
written; and a 4-byte prefix declaring a size above 20 MiB makes
`readBytes` fail identically for every body, i.e. without reading it. -/
theorem writeBytes_readBytes_spec (b rest : List ℕ) :
    (b.length ≤ maxMsgBytes →
      writeBytes b = Except.ok (intToBytes b.length ++ b) ∧
      readBytes ((intToBytes b.length ++ b) ++ rest) = Except.ok (b, rest)) ∧
    (b.length > maxMsgBytes → writeBytes b = Except.error "message too long") ∧
    (∀ sb body, sb.length = sizeBytes → bytesToInt sb > maxMsgBytes →
      readBytes (sb ++ body) = Except.error "message size exceed max") := by
  refine ⟨?_, ?_, ?_⟩
  · intro hlen
    have hw : writeBytes b = Except.ok (intToBytes b.length ++ b) := by
      unfold writeBytes
      rw [if_neg (by omega)]
    refine ⟨hw, ?_⟩
    have hpre : (intToBytes b.length).length = 4 := rfl
    have hinput : ((intToBytes b.length ++ b) ++ rest) = intToBytes b.length ++ (b ++ rest) := by
      rw [List.append_assoc]
    have hlen4 : (intToBytes b.length ++ (b ++ rest)).length = 4 + (b ++ rest).length := by
      rw [List.length_append, hpre]
    unfold readBytes
    rw [hinput]
    rw [if_neg (by
      intro hnil
      have := congrArg List.length hnil
      rw [hlen4] at this
      simp at this)]
    have hk : min sizeBytes (intToBytes b.length ++ (b ++ rest)).length = 4 := by
      rw [hlen4]
      unfold sizeBytes
      omega
    simp only [hk]
    have htake : (intToBytes b.length ++ (b ++ rest)).take 4 = intToBytes b.length := by
      rw [← hpre]
      exact List.take_left _ _
    have hdrop : (intToBytes b.length ++ (b ++ rest)).drop 4 = b ++ rest := by
      rw [← hpre]
      exact List.drop_left _ _
    have hrep : List.replicate (sizeBytes - 4) (0 : ℕ) = [] := rfl
    rw [htake, hdrop, hrep, List.append_nil]
    have hsize : bytesToInt (intToBytes b.length) = b.length :=
      bytesToInt_intToBytes b.length (by unfold maxMsgBytes at hlen; omega)
    rw [hsize]
    rw [if_neg (by omega)]
    have hrest : (b ++ rest).length = b.length + rest.length := List.length_append b rest
    rw [if_neg (by omega)]
    have htb : (b ++ rest).take b.length = b := List.take_left b rest
    have hdb : (b ++ rest).drop b.length = rest := List.drop_left b rest
    rw [htb, hdb]
    rw [if_neg (by simp)]
  · intro hlen
    unfold writeBytes
    rw [if_pos hlen]
  · intro sb body hsb hover
    unfold readBytes
    rw [if_neg (by
      intro hnil
      have := congrArg List.length hnil
      rw [List.length_append, hsb] at this
      unfold sizeBytes at this
      simp at this)]
    have hk : min sizeBytes (sb ++ body).length = 4 := by
      rw [List.length_append, hsb]
      unfold sizeBytes
      omega
    simp only [hk]
    have hsb4 : sb.length = 4 := by rw [hsb]; rfl
    have htake : (sb ++ body).take 4 = sb := by
      rw [← hsb4]
      exact List.take_left _ _
    have hrep : List.replicate (sizeBytes - 4) (0 : ℕ) = [] := rfl
    rw [htake, hrep, List.append_nil]
    rw [if_pos hover]

theorem writeBytes_readBytes_spec_witness :
    writeBytes [7] = Except.ok (intToBytes 1 ++ [7]) ∧
    readBytes ((intToBytes 1 ++ [7]) ++ [9]) = Except.ok ([7], [9]) :=
  (writeBytes_readBytes_spec [7] [9]).1 (by decide)
